import Mathlib

/-!
Verification of the algorithmic core of `utils/utils.py` (coordinate codec and
sequence partitioners) against its natural-language specification.

The Python functions are shallowly embedded:
* Python `int` is `ℤ` (arbitrary precision); values known nonnegative use `ℕ`.
* `assert` failures (`AssertionError`) and `ValueError` are `Option.none`.
* Python float true-division `p / q` of nonnegative ints, as used in
  `index_to_tuple` via `int(index / size)`, is modelled exactly: CPython's
  `long_true_divide` returns the IEEE-754 binary64 value nearest to the real
  quotient (ties to even), and `int()` then truncates toward zero.
-/

set_option maxRecDepth 100000

namespace PyUtils

/-- Floor of log base 2, driven by explicit fuel (enough fuel makes it exact).
`log2F fuel n` halves `n` until it reaches `0` or `1`, counting the steps. -/
def log2F : ℕ → ℕ → ℕ
  | 0, _ => 0
  | fuel + 1, n => if n ≤ 1 then 0 else log2F fuel (n / 2) + 1

/-- For `n ≥ 1`, `natLog2 n = ⌊log₂ n⌋` (and `0` at `0`): `n` itself is always
sufficient fuel, since at most `⌊log₂ n⌋ + 1 ≤ n` halvings are performed. -/
def natLog2 (n : ℕ) : ℕ := log2F n n

/-- Round the rational `num / den` (with `den ≠ 0`) to the nearest integer,
ties to even — the rounding used by IEEE-754 round-to-nearest-even. -/
def rndNE (num den : ℕ) : ℕ :=
  let d := num / den
  let r := num % den
  if 2 * r < den then d
  else if den < 2 * r then d + 1
  else if d % 2 = 0 then d else d + 1

/-- The binary exponent `e` with `2 ^ e ≤ p / q < 2 ^ (e + 1)`, for
`p, q ≥ 1`: computed by scaling `p` up by `2 ^ (⌊log₂ q⌋ + 64)` so that the
integer quotient keeps the leading bit position of the real quotient. -/
def fdivExp (p q : ℕ) : ℤ :=
  (natLog2 ((p * 2 ^ (natLog2 q + 64)) / q) : ℤ) - (natLog2 q + 64)

/-- Model of CPython `int(p / q)` for nonnegative ints `p`, `q` with `q ≥ 1`:
the real quotient `p / q` is rounded to the binary64 float nearest to it
(53-bit significand, ties to even), then truncated toward zero.  With
`2 ^ e ≤ p / q < 2 ^ (e + 1)` the representable neighbours are spaced
`2 ^ (e - 52)` apart, so the rounded significand is
`rndNE (p * 2 ^ (52 - e)) q` (resp. with the scale on `q` when `e > 52`),
and truncation divides (resp. multiplies) back by the scale. -/
def pyTruncFloatDiv (p q : ℕ) : ℕ :=
  if p = 0 then 0
  else
    let e : ℤ := fdivExp p q
    if e ≤ 52 then rndNE (p * 2 ^ (52 - e).toNat) q / 2 ^ (52 - e).toNat
    else rndNE p (q * 2 ^ (e - 52).toNat) * 2 ^ (e - 52).toNat

/-- Model of `utils.tuple_to_index`: asserts `0 <= t[0] < size and 0 <= t[1] < size`
(`none` on assertion failure), then returns `t[0] * size + t[1]`. -/
def tuple_to_index (t : ℤ × ℤ) (size : ℤ) : Option ℤ :=
  if 0 ≤ t.1 ∧ t.1 < size ∧ 0 ≤ t.2 ∧ t.2 < size then
    some (t.1 * size + t.2)
  else
    none

/-- Model of `utils.index_to_tuple`: asserts `0 <= index < size * size` (`none` on
assertion failure), then returns `(int(index / size), int(index % size))`.
Note the source uses float true division `index / size`, not floor division
`index // size`; under the assertion both operands are nonnegative (for the
positive sizes the spec quantifies over), so the first component is
`pyTruncFloatDiv` and the second is plain `%` on nonnegative ints. -/
def index_to_tuple (index : ℤ) (size : ℤ) : Option (ℤ × ℤ) :=
  if 0 ≤ index ∧ index < size * size then
    some ((pyTruncFloatDiv index.toNat size.toNat : ℤ),
          (index.toNat % size.toNat : ℤ))
  else
    none

/-- Python slice `seq[a:b]` for `0 ≤ a`, `0 ≤ b` (the only shape this code
produces): elements from position `a` up to (excluding) `b`, clamped to the
sequence; empty when `b ≤ a`. -/
def pySlice (seq : List α) (a b : ℕ) : List α :=
  (seq.drop a).take (b - a)

/-- Python slice with int endpoints; in this code every generated endpoint is
nonnegative, so the from-the-end meaning of negative indices never arises. -/
def pySliceZ (seq : List α) (a b : ℤ) : List α :=
  pySlice seq a.toNat b.toNat

/-- Python `range(0, stop, step)` as used by `divide_sequence_into_chunks`
(there `stop = len(seq) ≥ 0`): `none` models the `ValueError` raised on
`step = 0`; otherwise the arithmetic progression `0, step, 2*step, ...` with
`⌈(stop - 0) / step⌉` terms for positive `step` (counting down toward `stop`
for negative `step`, which is empty whenever `stop ≥ 0`). -/
def pyRange0 (stop step : ℤ) : Option (List ℤ) :=
  if step = 0 then none
  else
    let count : ℕ :=
      if 0 < step then (stop.toNat + step.toNat - 1) / step.toNat
      else ((-stop).toNat + (-step).toNat - 1) / (-step).toNat
    some ((List.range count).map (fun (i : ℕ) => (i : ℤ) * step))

/-- Model of `utils.divide_sequence_into_chunks`:
`[seq[x:x + chunk_size] for x in range(0, len(seq), chunk_size)]`. -/
def divide_sequence_into_chunks (seq : List α) (chunk_size : ℤ) :
    Option (List (List α)) :=
  (pyRange0 (seq.length : ℤ) chunk_size).map
    (fun xs => xs.map (fun x => pySliceZ seq x (x + chunk_size)))

/-- The `for i in range(n)` loop body of `utils.divide_indices_by_n`:
`i` iterations remain, with current `chunk_size`, `remainder` and `head`.
Each iteration emits `(head, head + chunk_size + 1)` while `remainder > 0`
(decrementing it), else `(head, head + chunk_size)`, then moves `head` to the
emitted end. -/
def divideIndicesGo : ℕ → ℕ → ℕ → ℕ → List (ℕ × ℕ)
  | 0, _, _, _ => []
  | i + 1, chunk_size, remainder, head =>
    if 0 < remainder then
      (head, head + chunk_size + 1) ::
        divideIndicesGo i chunk_size (remainder - 1) (head + chunk_size + 1)
    else
      (head, head + chunk_size) ::
        divideIndicesGo i chunk_size remainder (head + chunk_size)

/-- Model of `utils.divide_indices_by_n`: `chunk_size, remainder = length // n, length % n`,
then the loop above starting at `head = 0`.  The claims only concern
`n ≥ 1` (Python raises `ZeroDivisionError` at `n = 0`). -/
def divide_indices_by_n (length n : ℕ) : List (ℕ × ℕ) :=
  divideIndicesGo n (length / n) (length % n) 0

/-- Model of `utils.divide_sequence_by_n`:
`[seq[index[0]:index[1]] for index in divide_indices_by_n(len(seq), n)]`. -/
def divide_sequence_by_n (seq : List α) (n : ℕ) : List (List α) :=
  (divide_indices_by_n seq.length n).map (fun p => pySlice seq p.1 p.2)

/-- Sanity: small inputs round-trip (the tests' `index_to_tuple(30, 9)`). -/
example : index_to_tuple 30 9 = some (3, 3) := by decide

example : tuple_to_index (3, 3) 9 = some 30 := by decide

example : pyTruncFloatDiv 18014398509481983 134217728 = 134217728 := by decide

example : pyTruncFloatDiv 9007199254740993 1 = 9007199254740992 := by decide

example : pyTruncFloatDiv 9007199254740995 1 = 9007199254740996 := by decide

/-- Sanity: the doctests and unit tests of the partitioners. -/
example : divide_sequence_into_chunks [0, 1, 2, 3] 2 = some [[0, 1], [2, 3]] := by
  decide

example : divide_sequence_into_chunks [0, 1, 2, 3, 4] 2 =
    some [[0, 1], [2, 3], [4]] := by decide

example : divide_sequence_by_n [0, 1, 2, 3] 2 = [[0, 1], [2, 3]] := by decide

example : divide_sequence_by_n [0, 1, 2, 3] 3 = [[0, 1], [2], [3]] := by decide

example : divide_sequence_by_n [0, 1, 2, 3, 4] 3 = [[0, 1], [2, 3], [4]] := by
  decide

example : divide_sequence_by_n (List.range 10) 3 =
    [[0, 1, 2, 3], [4, 5, 6], [7, 8, 9]] := by decide

/-- C1: the decode-encode round trip `index_to_tuple (tuple_to_index (r, c))`
does NOT always return the original coordinate.  At `size = 2^27 = 134217728`
and `r = c = 2^27 - 1`, the encoded index is `2^54 - 1`; `int(index / size)`
computes `(2^54 - 1) / 2^27 = 2^27 - 2^-27` in binary64, which rounds (tie to
even) to `2^27` exactly, so decoding returns `(2^27, 2^27 - 1)`, not the
original `(2^27 - 1, 2^27 - 1)`. -/
theorem roundtrip_decode_encode_fails_at_pow27 :
    (tuple_to_index (134217727, 134217727) 134217728).bind
        (fun i => index_to_tuple i 134217728) = some (134217728, 134217727) ∧
    ((134217728 : ℤ), (134217727 : ℤ)) ≠ (134217727, 134217727) :=
  ⟨by decide, by decide⟩

/-- C2: the encode-decode round trip `tuple_to_index (index_to_tuple i)` does
NOT always return the original index.  At `size = 2^27` and
`i = 2^54 - 1 < size * size`, decoding yields the out-of-grid coordinate
`(2^27, 2^27 - 1)` (float division rounds up, see
`roundtrip_decode_encode_fails_at_pow27`), so re-encoding fails its bounds
assertion instead of returning `i`. -/
theorem roundtrip_encode_decode_fails_at_pow27 :
    (index_to_tuple 18014398509481983 134217728).bind
        (fun t => tuple_to_index t 134217728) = none :=
  by decide

/-- C6: `index_to_tuple` does NOT always return
`(index // size, index % size)` with floor division.  At
`index = 2^54 - 1`, `size = 2^27` (in bounds, so no `OutOfBounds` failure),
floor division gives row `2^27 - 1 = 134217727`, but the code's
`int(index / size)` returns `2^27 = 134217728`. -/
theorem index_to_tuple_ne_floor_div_at_pow27 :
    index_to_tuple 18014398509481983 134217728 = some (134217728, 134217727) ∧
    (18014398509481983 : ℕ) / 134217728 = 134217727 ∧
    (134217728 : ℤ) ≠ 134217727 :=
  ⟨by decide, by decide, by decide⟩

/-- C7: for positive `size`, `tuple_to_index (row, col) size` fails (with the
`"Out of bound"` assertion, `none` here) iff `row < 0` or `row ≥ size` or
`col < 0` or `col ≥ size`, and on in-range input returns
`row * size + col`. -/
theorem tuple_to_index_spec (row col size : ℤ) (h : 0 < size) :
    (tuple_to_index (row, col) size = none ↔
      row < 0 ∨ size ≤ row ∨ col < 0 ∨ size ≤ col) ∧
    (0 ≤ row → row < size → 0 ≤ col → col < size →
      tuple_to_index (row, col) size = some (row * size + col)) := by
  constructor
  · by_cases hc : 0 ≤ row ∧ row < size ∧ 0 ≤ col ∧ col < size
    · simp [tuple_to_index, hc]
    · simp [tuple_to_index, hc]
      omega
  · intro h1 h2 h3 h4
    simp [tuple_to_index, h1, h2, h3, h4]

/-- Witness for C7 at `row = 3`, `col = 3`, `size = 9`. -/
theorem tuple_to_index_spec_witness :
    (tuple_to_index (3, 3) 9 = none ↔
      (3 : ℤ) < 0 ∨ (9 : ℤ) ≤ 3 ∨ (3 : ℤ) < 0 ∨ (9 : ℤ) ≤ 3) ∧
    ((0 : ℤ) ≤ 3 → (3 : ℤ) < 9 → (0 : ℤ) ≤ 3 → (3 : ℤ) < 9 →
      tuple_to_index (3, 3) 9 = some (3 * 9 + 3)) :=
  tuple_to_index_spec 3 3 9 (by decide)

lemma divideIndicesGo_length : ∀ i cs rem head : ℕ,
    (divideIndicesGo i cs rem head).length = i
  | 0, _, _, _ => rfl
  | i + 1, cs, rem, head => by
    by_cases hr : 0 < rem <;>
      simp [divideIndicesGo, hr, divideIndicesGo_length i]

/-- Closed form for the entries of the index loop: starting from `head` with
`rem` long slices still to emit, the `j`-th emitted pair is
`(head + j*cs + min j rem, head + (j+1)*cs + min (j+1) rem)`. -/
lemma divideIndicesGo_getElem? : ∀ i cs rem head j : ℕ, j < i →
    (divideIndicesGo i cs rem head)[j]? =
      some (head + j * cs + min j rem, head + (j + 1) * cs + min (j + 1) rem)
  | 0, _, _, _, _, h => absurd h (Nat.not_lt_zero _)
  | i + 1, cs, rem, head, 0, _ => by
    by_cases hr : 0 < rem
    · simp [divideIndicesGo, hr]
      omega
    · simp [divideIndicesGo, hr]
      omega
  | i + 1, cs, rem, head, j + 1, h => by
    by_cases hr : 0 < rem
    · have ih := divideIndicesGo_getElem? i cs (rem - 1) (head + cs + 1) j
        (by omega)
      simp only [divideIndicesGo, if_pos hr, List.getElem?_cons_succ]
      rw [ih]
      simp only [Option.some.injEq, Prod.mk.injEq]
      constructor <;> (simp only [add_mul, one_mul]; omega)
    · have ih := divideIndicesGo_getElem? i cs rem (head + cs) j (by omega)
      simp only [divideIndicesGo, if_neg hr, List.getElem?_cons_succ]
      rw [ih]
      simp only [Option.some.injEq, Prod.mk.injEq]
      constructor <;> (simp only [add_mul, one_mul]; omega)

/-- Entries of `divide_indices_by_n` in closed form. -/
lemma divide_indices_getElem? (L n j : ℕ) (hj : j < n) :
    (divide_indices_by_n L n)[j]? =
      some (j * (L / n) + min j (L % n),
            (j + 1) * (L / n) + min (j + 1) (L % n)) := by
  have h := divideIndicesGo_getElem? n (L / n) (L % n) 0 j hj
  simpa [divide_indices_by_n] using h

lemma divide_indices_length (L n : ℕ) : (divide_indices_by_n L n).length = n :=
  divideIndicesGo_length n (L / n) (L % n) 0

/-- Reading an entry of a map over `List.range` gives the index bound and the
value of the mapped function there. -/
lemma range_map_getElem? {β : Type} (c j : ℕ) (f : ℕ → β) (p : β)
    (hp : ((List.range c).map f)[j]? = some p) : j < c ∧ p = f j := by
  have hj : j < c := by
    have h := (List.getElem?_eq_some_iff.mp hp).1
    simpa using h
  rw [List.getElem?_map, List.getElem?_range hj] at hp
  simp only [Option.map_some', Option.some.injEq] at hp
  exact ⟨hj, hp.symm⟩

/-- C9: for `n ≥ 1`, `divide_indices_by_n length n` is a contiguous half-open
covering of `[0, length)`: exactly `n` pairs, the first starting at `0`, each
pair's end equal to the next pair's start, every pair with `start ≤ end`, and
the last pair ending at `length`. -/
theorem divide_indices_covering (L n : ℕ) (hn : 1 ≤ n) :
    (divide_indices_by_n L n).length = n ∧
    (∀ p : ℕ × ℕ, (divide_indices_by_n L n).head? = some p → p.1 = 0) ∧
    (∀ (j : ℕ) (p q : ℕ × ℕ), (divide_indices_by_n L n)[j]? = some p →
      (divide_indices_by_n L n)[j + 1]? = some q → q.1 = p.2) ∧
    (∀ (j : ℕ) (p : ℕ × ℕ), (divide_indices_by_n L n)[j]? = some p → p.1 ≤ p.2) ∧
    (∀ p : ℕ × ℕ, (divide_indices_by_n L n).getLast? = some p → p.2 = L) := by
  have hlen := divide_indices_length L n
  refine ⟨hlen, ?_, ?_, ?_, ?_⟩
  · intro p hp
    rw [List.head?_eq_getElem?, divide_indices_getElem? L n 0 hn] at hp
    cases hp
    simp
  · intro j p q hp hq
    have hj : j < n := by
      have h := (List.getElem?_eq_some_iff.mp hp).1
      omega
    have hj1 : j + 1 < n := by
      have h := (List.getElem?_eq_some_iff.mp hq).1
      omega
    rw [divide_indices_getElem? L n j hj] at hp
    rw [divide_indices_getElem? L n (j + 1) hj1] at hq
    cases hp
    cases hq
    rfl
  · intro j p hp
    have hj : j < n := by
      have h := (List.getElem?_eq_some_iff.mp hp).1
      omega
    rw [divide_indices_getElem? L n j hj] at hp
    cases hp
    have h1 : j * (L / n) ≤ (j + 1) * (L / n) :=
      Nat.mul_le_mul_right _ (by omega)
    simp only
    omega
  · intro p hp
    rw [List.getLast?_eq_getElem?, hlen,
      divide_indices_getElem? L n (n - 1) (by omega)] at hp
    cases hp
    have hnn : n - 1 + 1 = n := by omega
    rw [hnn]
    have hdm := Nat.div_add_mod L n
    have hmod : L % n < n := Nat.mod_lt _ (by omega)
    simp only
    omega

/-- Witness for C9 at `length = 5`, `n = 3`. -/
theorem divide_indices_covering_witness :
    (divide_indices_by_n 5 3).length = 3 ∧
    (∀ p : ℕ × ℕ, (divide_indices_by_n 5 3).head? = some p → p.1 = 0) ∧
    (∀ (j : ℕ) (p q : ℕ × ℕ), (divide_indices_by_n 5 3)[j]? = some p →
      (divide_indices_by_n 5 3)[j + 1]? = some q → q.1 = p.2) ∧
    (∀ (j : ℕ) (p : ℕ × ℕ), (divide_indices_by_n 5 3)[j]? = some p → p.1 ≤ p.2) ∧
    (∀ p : ℕ × ℕ, (divide_indices_by_n 5 3).getLast? = some p → p.2 = 5) :=
  divide_indices_covering 5 3 (by decide)

/-- A slice that ends inside the sequence has length `b - a`. -/
lemma pySlice_length {α : Type} (seq : List α) (a b : ℕ)
    (hb : b ≤ seq.length) : (pySlice seq a b).length = b - a := by
  simp only [pySlice, List.length_take, List.length_drop]
  rw [inf_eq_min]
  omega

/-- C3: for `1 ≤ n ≤ len(seq)`, `divide_sequence_by_n` returns exactly `n`
slices; with `base = len(seq) // n` and `remainder = len(seq) % n`, each of
the first `remainder` slices has length `base + 1` and each of the remaining
`n - remainder` slices has length `base`. -/
theorem divide_sequence_by_n_lengths {α : Type} (seq : List α) (n : ℕ)
    (h1 : 1 ≤ n) (h2 : n ≤ seq.length) :
    (divide_sequence_by_n seq n).length = n ∧
    ∀ (j : ℕ) (p : List α), (divide_sequence_by_n seq n)[j]? = some p →
      p.length = if j < seq.length % n then
        seq.length / n + 1 else seq.length / n := by
  have hlen := divide_indices_length seq.length n
  constructor
  · simp [divide_sequence_by_n, hlen]
  · intro j p hp
    rw [divide_sequence_by_n, List.getElem?_map] at hp
    have hj : j < n := by
      rcases hx : (divide_indices_by_n seq.length n)[j]? with _ | q
      · rw [hx] at hp
        simp at hp
      · have h := (List.getElem?_eq_some_iff.mp hx).1
        omega
    rw [divide_indices_getElem? seq.length n j hj] at hp
    simp only [Option.map_some', Option.some.injEq] at hp
    subst hp
    have hdm := Nat.div_add_mod seq.length n
    have hmod : seq.length % n < n := Nat.mod_lt _ (by omega)
    have hmono : (j + 1) * (seq.length / n) ≤ n * (seq.length / n) := by
      have h := Nat.mul_le_mul_right (seq.length / n)
        (show j + 1 ≤ n by omega)
      omega
    have hexp : (j + 1) * (seq.length / n)
        = j * (seq.length / n) + seq.length / n := by ring
    by_cases hc : j < seq.length % n
    · have hm1 : min j (seq.length % n) = j := by omega
      have hm2 : min (j + 1) (seq.length % n) = j + 1 := by omega
      rw [hm1, hm2, pySlice_length seq (j * (seq.length / n) + j)
        ((j + 1) * (seq.length / n) + (j + 1)) (by omega), if_pos hc]
      generalize seq.length / n = Q at hexp ⊢
      omega
    · have hm1 : min j (seq.length % n) = seq.length % n := by omega
      have hm2 : min (j + 1) (seq.length % n) = seq.length % n := by omega
      rw [hm1, hm2, pySlice_length seq (j * (seq.length / n) + seq.length % n)
        ((j + 1) * (seq.length / n) + seq.length % n) (by omega), if_neg hc]
      generalize seq.length / n = Q at hexp ⊢
      omega

/-- Witness for C3 at `seq = [0, 1, 2, 3, 4]`, `n = 3`. -/
theorem divide_sequence_by_n_lengths_witness :
    (divide_sequence_by_n ([0, 1, 2, 3, 4] : List ℕ) 3).length = 3 ∧
    ∀ (j : ℕ) (p : List ℕ),
      (divide_sequence_by_n ([0, 1, 2, 3, 4] : List ℕ) 3)[j]? = some p →
      p.length = if j < ([0, 1, 2, 3, 4] : List ℕ).length % 3 then
        ([0, 1, 2, 3, 4] : List ℕ).length / 3 + 1
      else ([0, 1, 2, 3, 4] : List ℕ).length / 3 :=
  divide_sequence_by_n_lengths [0, 1, 2, 3, 4] 3 (by decide) (by decide)

/-- C10: when `n > len(seq)`, `divide_sequence_by_n` still returns exactly `n`
slices: the first `len(seq)` are the singletons `[seq[j]]` in order, the
remaining `n - len(seq)` are empty. -/
theorem divide_sequence_by_n_singletons {α : Type} (seq : List α) (n : ℕ)
    (h : seq.length < n) :
    (divide_sequence_by_n seq n).length = n ∧
    ∀ (j : ℕ) (p : List α), (divide_sequence_by_n seq n)[j]? = some p →
      (∀ hj : j < seq.length, p = [seq.get ⟨j, hj⟩]) ∧
      (seq.length ≤ j → p = []) := by
  have hlen := divide_indices_length seq.length n
  have hdiv : seq.length / n = 0 := Nat.div_eq_of_lt h
  have hmod : seq.length % n = seq.length := Nat.mod_eq_of_lt h
  constructor
  · simp [divide_sequence_by_n, hlen]
  · intro j p hp
    rw [divide_sequence_by_n, List.getElem?_map] at hp
    have hj : j < n := by
      rcases hx : (divide_indices_by_n seq.length n)[j]? with _ | q
      · rw [hx] at hp
        simp at hp
      · have hb := (List.getElem?_eq_some_iff.mp hx).1
        omega
    rw [divide_indices_getElem? seq.length n j hj] at hp
    simp only [Option.map_some', Option.some.injEq] at hp
    subst hp
    rw [hdiv, hmod]
    simp only [Nat.mul_zero, Nat.zero_add]
    constructor
    · intro hjL
      have hm1 : min j seq.length = j := by omega
      have hm2 : min (j + 1) seq.length = j + 1 := by omega
      rw [hm1, hm2, pySlice, List.drop_eq_getElem_cons hjL]
      have hd : j + 1 - j = 1 := by omega
      rw [hd]
      simp only [List.get_eq_getElem]
      rfl
    · intro hjL
      have hm1 : min j seq.length = seq.length := by omega
      have hm2 : min (j + 1) seq.length = seq.length := by omega
      rw [hm1, hm2, pySlice]
      simp

/-- Witness for C10 at `seq = [7, 8]`, `n = 4`. -/
theorem divide_sequence_by_n_singletons_witness :
    (divide_sequence_by_n ([7, 8] : List ℕ) 4).length = 4 ∧
    ∀ (j : ℕ) (p : List ℕ),
      (divide_sequence_by_n ([7, 8] : List ℕ) 4)[j]? = some p →
      (∀ hj : j < ([7, 8] : List ℕ).length,
        p = [([7, 8] : List ℕ).get ⟨j, hj⟩]) ∧
      (([7, 8] : List ℕ).length ≤ j → p = []) :=
  divide_sequence_by_n_singletons [7, 8] 4 (by decide)

/-- For a positive chunk size, `divide_sequence_into_chunks` succeeds and is
the list of `⌈len(seq) / cs⌉` consecutive `cs`-wide slices. -/
lemma divide_sequence_into_chunks_pos {α : Type} (seq : List α) (cs : ℕ)
    (h : 1 ≤ cs) :
    divide_sequence_into_chunks seq (cs : ℤ) =
      some ((List.range ((seq.length + cs - 1) / cs)).map
        (fun i => (seq.drop (i * cs)).take cs)) := by
  have hne : ¬((cs : ℤ) = 0) := by
    simp only [Nat.cast_eq_zero]
    omega
  have hpos : (0 : ℤ) < cs := by
    simp only [Nat.cast_pos]
    omega
  unfold divide_sequence_into_chunks pyRange0
  rw [if_neg hne, if_pos hpos]
  simp only [Int.toNat_ofNat, Option.map_some', Option.some.injEq]
  rw [List.map_map]
  apply List.map_congr_left
  intro i _
  simp only [Function.comp]
  have h1 : ((i : ℤ) * cs).toNat = i * cs := by
    rw [← Nat.cast_mul, Int.toNat_ofNat]
  have h2 : ((i : ℤ) * cs + cs).toNat = i * cs + cs := by
    rw [← Nat.cast_mul, ← Nat.cast_add, Int.toNat_ofNat]
  rw [pySliceZ, h1, h2, pySlice]
  have h3 : i * cs + cs - i * cs = cs := by omega
  rw [h3]

/-- Characterization of the chunk count `⌈L / cs⌉ = (L + cs - 1) / cs`. -/
lemma ceil_div_char (L cs : ℕ) (h : 1 ≤ cs) :
    (L + cs - 1) / cs = L / cs + (if L % cs = 0 then 0 else 1) := by
  have hdm := Nat.div_add_mod L cs
  have hmod : L % cs < cs := Nat.mod_lt _ (by omega)
  by_cases hr : L % cs = 0
  · have hrw : L + cs - 1 = (cs - 1) + cs * (L / cs) := by omega
    rw [hrw, Nat.add_mul_div_left _ _ (show 0 < cs by omega),
      Nat.div_eq_of_lt (show cs - 1 < cs by omega), if_pos hr]
    omega
  · have hexp : cs * (L / cs + 1) = cs * (L / cs) + cs := by ring
    have hrw : L + cs - 1 = (L % cs - 1) + cs * (L / cs + 1) := by omega
    rw [hrw, Nat.add_mul_div_left _ _ (show 0 < cs by omega),
      Nat.div_eq_of_lt (show L % cs - 1 < cs by omega), if_neg hr]
    omega

/-- C4: for `chunk_size ≥ 1`, `divide_sequence_into_chunks` returns the
consecutive slices `seq[j*cs : j*cs + cs]` in original order starting at
index `0`; when `len(seq)` is a multiple of `cs` every slice has exactly `cs`
elements, otherwise every slice but the last has `cs` elements and the last
has `len(seq) % cs` elements, a length in `[1, cs]`; an empty sequence gives
the empty list. -/
theorem divide_sequence_into_chunks_spec {α : Type} (seq : List α) (cs : ℕ)
    (h : 1 ≤ cs) :
    ∃ l, divide_sequence_into_chunks seq (cs : ℤ) = some l ∧
      (seq.length = 0 → l = []) ∧
      (∀ (j : ℕ) (p : List α), l[j]? = some p →
        p = (seq.drop (j * cs)).take cs) ∧
      (seq.length % cs = 0 → ∀ (j : ℕ) (p : List α), l[j]? = some p →
        p.length = cs) ∧
      (seq.length % cs ≠ 0 →
        (∀ (j : ℕ) (p : List α), l[j]? = some p → j + 1 < l.length →
          p.length = cs) ∧
        (∀ p : List α, l.getLast? = some p → p.length = seq.length % cs) ∧
        1 ≤ seq.length % cs ∧ seq.length % cs ≤ cs) := by
  have hdm := Nat.div_add_mod seq.length cs
  have hmod : seq.length % cs < cs := Nat.mod_lt _ (by omega)
  have hchar := ceil_div_char seq.length cs h
  refine ⟨_, divide_sequence_into_chunks_pos seq cs h, ?_, ?_, ?_, ?_⟩
  · intro h0
    have hc0 : (seq.length + cs - 1) / cs = 0 := by
      rw [h0]
      exact Nat.div_eq_of_lt (by omega)
    rw [hc0]
    simp
  · intro j p hp
    obtain ⟨hj, hpf⟩ := range_map_getElem? _ j _ p hp
    exact hpf
  · intro hr0 j p hp
    obtain ⟨hj, hpf⟩ := range_map_getElem? _ j _ p hp
    subst hpf
    have hc := hchar
    rw [if_pos hr0] at hc
    rw [List.length_take, List.length_drop, inf_eq_min]
    have hmono : (j + 1) * cs ≤ (seq.length / cs) * cs := by
      apply Nat.mul_le_mul_right
      omega
    have hco : (seq.length / cs) * cs = cs * (seq.length / cs) :=
      Nat.mul_comm _ _
    have hexp : (j + 1) * cs = j * cs + cs := by ring
    omega
  · intro hr0
    have hc := hchar
    rw [if_neg hr0] at hc
    have hlenl : ((List.range ((seq.length + cs - 1) / cs)).map
        (fun i => (seq.drop (i * cs)).take cs)).length
          = (seq.length + cs - 1) / cs := by
      simp
    refine ⟨?_, ?_, by omega, by omega⟩
    · intro j p hp hjlast
      obtain ⟨hj, hpf⟩ := range_map_getElem? _ j _ p hp
      subst hpf
      rw [hlenl] at hjlast
      rw [List.length_take, List.length_drop, inf_eq_min]
      have hmono : (j + 1) * cs ≤ (seq.length / cs) * cs := by
        apply Nat.mul_le_mul_right
        omega
      have hco : (seq.length / cs) * cs = cs * (seq.length / cs) :=
        Nat.mul_comm _ _
      have hexp : (j + 1) * cs = j * cs + cs := by ring
      omega
    · intro p hp
      rw [List.getLast?_eq_getElem?, hlenl] at hp
      obtain ⟨hj, hpf⟩ := range_map_getElem? _ _ _ p hp
      subst hpf
      rw [List.length_take, List.length_drop, inf_eq_min]
      have hc1 : (seq.length + cs - 1) / cs - 1 = seq.length / cs := by omega
      rw [hc1]
      have hco : (seq.length / cs) * cs = cs * (seq.length / cs) :=
        Nat.mul_comm _ _
      omega

/-- Witness for C4 at `seq = [0, 1, 2, 3, 4]`, `chunk_size = 2`. -/
theorem divide_sequence_into_chunks_spec_witness :
    ∃ l, divide_sequence_into_chunks ([0, 1, 2, 3, 4] : List ℕ)
        ((2 : ℕ) : ℤ) = some l ∧
      (([0, 1, 2, 3, 4] : List ℕ).length = 0 → l = []) ∧
      (∀ (j : ℕ) (p : List ℕ), l[j]? = some p →
        p = (([0, 1, 2, 3, 4] : List ℕ).drop (j * 2)).take 2) ∧
      (([0, 1, 2, 3, 4] : List ℕ).length % 2 = 0 →
        ∀ (j : ℕ) (p : List ℕ), l[j]? = some p → p.length = 2) ∧
      (([0, 1, 2, 3, 4] : List ℕ).length % 2 ≠ 0 →
        (∀ (j : ℕ) (p : List ℕ), l[j]? = some p → j + 1 < l.length →
          p.length = 2) ∧
        (∀ p : List ℕ, l.getLast? = some p →
          p.length = ([0, 1, 2, 3, 4] : List ℕ).length % 2) ∧
        1 ≤ ([0, 1, 2, 3, 4] : List ℕ).length % 2 ∧
        ([0, 1, 2, 3, 4] : List ℕ).length % 2 ≤ 2) :=
  divide_sequence_into_chunks_spec [0, 1, 2, 3, 4] 2 (by decide)

/-- Peeling one chunk off the front decrements the chunk count. -/
lemma ceil_div_succ (L cs : ℕ) (h : 1 ≤ cs) (hL : 1 ≤ L) :
    (L + cs - 1) / cs = ((L - cs) + cs - 1) / cs + 1 := by
  by_cases hle : L ≤ cs
  · have h1 : (L + cs - 1) / cs = 1 := by
      apply Nat.div_eq_of_lt_le
      · omega
      · omega
    have h2 : L - cs = 0 := by omega
    rw [h1, h2, Nat.div_eq_of_lt (show 0 + cs - 1 < cs by omega)]
  · have hrw : L + cs - 1 = ((L - cs) + cs - 1) + cs := by omega
    rw [hrw, Nat.add_div_right _ (show 0 < cs by omega)]

/-- Concatenating the `cs`-wide slices recovers the sequence. -/
lemma range_chunks_flatten {α : Type} (cs : ℕ) (h : 1 ≤ cs) :
    ∀ (N : ℕ) (seq : List α), seq.length ≤ N →
      ((List.range ((seq.length + cs - 1) / cs)).map
        (fun i => (seq.drop (i * cs)).take cs)).flatten = seq := by
  intro N
  induction N with
  | zero =>
    intro seq hN
    have h0 : seq = [] := List.eq_nil_of_length_eq_zero (by omega)
    subst h0
    simp [Nat.div_eq_of_lt (show 0 + cs - 1 < cs by omega)]
  | succ N ih =>
    intro seq hN
    by_cases h0 : seq.length = 0
    · have h0e : seq = [] := List.eq_nil_of_length_eq_zero h0
      subst h0e
      simp [Nat.div_eq_of_lt (show 0 + cs - 1 < cs by omega)]
    · rw [ceil_div_succ seq.length cs h (by omega), List.range_succ_eq_map,
        List.map_cons, List.flatten_cons, List.map_map]
      have hcongr : ((fun i => (seq.drop (i * cs)).take cs) ∘ Nat.succ)
          = fun i => (((seq.drop cs).drop (i * cs)).take cs) := by
        funext i
        simp only [Function.comp, List.drop_drop]
        have hsm : Nat.succ i * cs = cs + i * cs := by
          rw [Nat.succ_mul]
          omega
        rw [hsm]
      rw [hcongr]
      have hlen : (seq.drop cs).length = seq.length - cs :=
        List.length_drop cs seq
      rw [show seq.length - cs = (seq.drop cs).length from hlen.symm,
        ih (seq.drop cs) (by rw [hlen]; omega)]
      simp only [Nat.zero_mul, List.drop_zero]
      exact List.take_append_drop cs seq

/-- Concatenating the slices cut along `divideIndicesGo`'s boundary pairs
yields the `i * cs + min i rem` elements of the sequence from `head` on. -/
lemma divideIndicesGo_slices_flatten {α : Type} (seq : List α) :
    ∀ i cs rem head : ℕ,
      ((divideIndicesGo i cs rem head).map
        (fun p => pySlice seq p.1 p.2)).flatten
        = (seq.drop head).take (i * cs + min i rem)
  | 0, _, _, _ => by simp [divideIndicesGo]
  | i + 1, cs, rem, head => by
    by_cases hr : 0 < rem
    · rw [show divideIndicesGo (i + 1) cs rem head
          = (head, head + cs + 1) ::
            divideIndicesGo i cs (rem - 1) (head + cs + 1) from by
        simp [divideIndicesGo, hr]]
      rw [List.map_cons, List.flatten_cons,
        divideIndicesGo_slices_flatten seq i cs (rem - 1) (head + cs + 1)]
      have hdd : seq.drop (head + cs + 1) = (seq.drop head).drop (cs + 1) := by
        rw [List.drop_drop]
        congr 1
      rw [hdd]
      have hsl : pySlice seq head (head + cs + 1)
          = (seq.drop head).take (cs + 1) := by
        rw [pySlice]
        congr 1
        omega
      rw [hsl, ← List.take_add]
      congr 1
      have hsm : (i + 1) * cs = i * cs + cs := by ring
      omega
    · rw [show divideIndicesGo (i + 1) cs rem head
          = (head, head + cs) :: divideIndicesGo i cs rem (head + cs) from by
        simp [divideIndicesGo, hr]]
      rw [List.map_cons, List.flatten_cons,
        divideIndicesGo_slices_flatten seq i cs rem (head + cs)]
      have hdd : seq.drop (head + cs) = (seq.drop head).drop cs := by
        rw [List.drop_drop]
      rw [hdd]
      have hsl : pySlice seq head (head + cs) = (seq.drop head).take cs := by
        rw [pySlice]
        congr 1
        omega
      rw [hsl, ← List.take_add]
      congr 1
      have hsm : (i + 1) * cs = i * cs + cs := by ring
      omega

/-- Concatenating the `n` balanced slices recovers the sequence. -/
lemma divide_sequence_by_n_flatten {α : Type} (seq : List α) (n : ℕ)
    (hn : 1 ≤ n) : (divide_sequence_by_n seq n).flatten = seq := by
  rw [divide_sequence_by_n, divide_indices_by_n,
    divideIndicesGo_slices_flatten seq n (seq.length / n) (seq.length % n) 0,
    List.drop_zero]
  have hdm := Nat.div_add_mod seq.length n
  have hmod : seq.length % n < n := Nat.mod_lt _ (by omega)
  have hmin : min n (seq.length % n) = seq.length % n := by omega
  rw [hmin, show n * (seq.length / n) + seq.length % n = seq.length from hdm]
  exact List.take_length seq

/-- C5: for `chunk_size ≥ 1` and `n ≥ 1`, concatenating the slices returned
by `divide_sequence_into_chunks` in order yields `seq`, and likewise for
`divide_sequence_by_n`; in particular the slice lengths sum to `len(seq)`
(order preservation within and across slices is exactly the concatenation
identity). -/
theorem partitioners_concat {α : Type} (seq : List α) (cs n : ℕ)
    (h1 : 1 ≤ cs) (h2 : 1 ≤ n) :
    (∃ l, divide_sequence_into_chunks seq (cs : ℤ) = some l ∧
      l.flatten = seq ∧ (l.map List.length).sum = seq.length) ∧
    (divide_sequence_by_n seq n).flatten = seq ∧
    ((divide_sequence_by_n seq n).map List.length).sum = seq.length := by
  refine ⟨⟨_, divide_sequence_into_chunks_pos seq cs h1,
    range_chunks_flatten cs h1 seq.length seq le_rfl, ?_⟩,
    divide_sequence_by_n_flatten seq n h2, ?_⟩
  · rw [← List.length_flatten,
      range_chunks_flatten cs h1 seq.length seq le_rfl]
  · rw [← List.length_flatten, divide_sequence_by_n_flatten seq n h2]

/-- Witness for C5 at `seq = [0, 1, 2, 3, 4]`, `chunk_size = 2`, `n = 3`. -/
theorem partitioners_concat_witness :
    (∃ l, divide_sequence_into_chunks ([0, 1, 2, 3, 4] : List ℕ)
        ((2 : ℕ) : ℤ) = some l ∧
      l.flatten = [0, 1, 2, 3, 4] ∧
      (l.map List.length).sum = ([0, 1, 2, 3, 4] : List ℕ).length) ∧
    (divide_sequence_by_n ([0, 1, 2, 3, 4] : List ℕ) 3).flatten
      = [0, 1, 2, 3, 4] ∧
    ((divide_sequence_by_n ([0, 1, 2, 3, 4] : List ℕ) 3).map
      List.length).sum = ([0, 1, 2, 3, 4] : List ℕ).length :=
  partitioners_concat [0, 1, 2, 3, 4] 2 3 (by decide) (by decide)

/-- C8, counterexample to "fails fast for every `chunk_size ≤ 0`": at
`chunk_size = -1` (which is `≤ 0`) on the nonempty input `[0]`, the code
raises nothing — `range(0, 1, -1)` is simply empty — and silently returns
the empty list, a wrong result. -/
theorem chunks_neg_size_no_error :
    divide_sequence_into_chunks ([0] : List ℕ) (-1) = some [] := by decide

/-- C8 (amended): `divide_sequence_into_chunks` fails fast only at
`chunk_size = 0` (the `ValueError` from `range`); for every `chunk_size < 0`
it raises no error and silently returns the empty list. -/
theorem chunks_nonpos_size_behavior {α : Type} (seq : List α) (cs : ℤ)
    (h : cs ≤ 0) :
    divide_sequence_into_chunks seq cs
      = if cs = 0 then none else some [] := by
  by_cases h0 : cs = 0
  · simp [divide_sequence_into_chunks, pyRange0, h0]
  · have hneg : ¬(0 : ℤ) < cs := by omega
    have hz : (-(seq.length : ℤ)).toNat = 0 := by omega
    have hcount : ((-(seq.length : ℤ)).toNat + (-cs).toNat - 1)
        / (-cs).toNat = 0 := by
      rw [hz]
      exact Nat.div_eq_of_lt (by omega)
    simp [divide_sequence_into_chunks, pyRange0, h0, hneg, hcount]
    exact Nat.div_eq_of_lt (by omega)

/-- Witness for the amended C8 at `seq = [0, 1]`, `chunk_size = -1`. -/
theorem chunks_nonpos_size_behavior_witness :
    divide_sequence_into_chunks ([0, 1] : List ℕ) (-1)
      = if (-1 : ℤ) = 0 then none else some [] :=
  chunks_nonpos_size_behavior [0, 1] (-1) (by decide)

end PyUtils
